import Mathlib

/-!
Shallow embedding of the Pocket Wasm query engine
(`src/packages/wasm-engine/rust/src/{engine,filter,sort,aggregate}.rs`).

Modelling conventions:
* `serde_json::Value` becomes the inductive `Value` below; JSON numbers are
  modelled as rationals (`Rat`).  JSON parsing never produces NaN/infinite
  numbers, so `Number::as_f64` and `partial_cmp` on resolved numbers always
  succeed; correspondingly the `Rat` model compares totally.
* `serde_json::Map` (a `BTreeMap` ordered by key) becomes an association list
  kept sorted by key; `insertKV` / `eraseKey` model `Map::insert` / `remove`.
* Rust's stable `slice::sort_by` is modelled by `List.mergeSort`, a stable
  merge sort, with `le a b := compare(a,b) ≠ Greater`.
* The `HashMap` used for grouping is modelled as an insertion-ordered
  association list (`addToGroup`); row order of aggregation output is
  unspecified in the source, insertion order is one admissible realisation.
-/

namespace Pocket

/-- JSON value (`serde_json::Value`); numbers are modelled as rationals. -/
inductive Value where
  | null
  | bool (b : Bool)
  | num (q : Rat)
  | str (s : String)
  | arr (xs : List Value)
  | obj (fields : List (String × Value))

mutual

/-- Structural equality test on `Value` (serde_json `PartialEq`). -/
def beqVal : Value → Value → Bool
  | .null, .null => true
  | .bool a, .bool b => a == b
  | .num a, .num b => a == b
  | .str a, .str b => a == b
  | .arr a, .arr b => beqValList a b
  | .obj a, .obj b => beqValObj a b
  | _, _ => false

/-- Elementwise equality of value lists. -/
def beqValList : List Value → List Value → Bool
  | [], [] => true
  | a :: as, b :: bs => beqVal a b && beqValList as bs
  | _, _ => false

/-- Elementwise equality of key/value lists. -/
def beqValObj : List (String × Value) → List (String × Value) → Bool
  | [], [] => true
  | (k, v) :: as, (k', v') :: bs => k == k' && beqVal v v' && beqValObj as bs
  | _, _ => false

end

mutual

theorem beqVal_iff : ∀ (a b : Value), beqVal a b = true ↔ a = b
  | .null, .null => by simp [beqVal]
  | .bool _, .bool _ => by simp [beqVal]
  | .num _, .num _ => by simp [beqVal]
  | .str _, .str _ => by simp [beqVal]
  | .arr a, .arr b => by
      simp only [beqVal, beqValList_iff a b]
      constructor
      · intro h; rw [h]
      · intro h; cases h; rfl
  | .obj a, .obj b => by
      simp only [beqVal, beqValObj_iff a b]
      constructor
      · intro h; rw [h]
      · intro h; cases h; rfl
  | .null, .bool _ | .null, .num _ | .null, .str _ | .null, .arr _ | .null, .obj _ => by
      simp [beqVal]
  | .bool _, .null | .bool _, .num _ | .bool _, .str _ | .bool _, .arr _ | .bool _, .obj _ => by
      simp [beqVal]
  | .num _, .null | .num _, .bool _ | .num _, .str _ | .num _, .arr _ | .num _, .obj _ => by
      simp [beqVal]
  | .str _, .null | .str _, .bool _ | .str _, .num _ | .str _, .arr _ | .str _, .obj _ => by
      simp [beqVal]
  | .arr _, .null | .arr _, .bool _ | .arr _, .num _ | .arr _, .str _ | .arr _, .obj _ => by
      simp [beqVal]
  | .obj _, .null | .obj _, .bool _ | .obj _, .num _ | .obj _, .str _ | .obj _, .arr _ => by
      simp [beqVal]

theorem beqValList_iff : ∀ (a b : List Value), beqValList a b = true ↔ a = b
  | [], [] => by simp [beqValList]
  | a :: as, b :: bs => by
      simp only [beqValList, Bool.and_eq_true, beqVal_iff a b, beqValList_iff as bs]
      constructor
      · rintro ⟨h1, h2⟩; rw [h1, h2]
      · intro h; cases h; exact ⟨rfl, rfl⟩
  | [], _ :: _ => by simp [beqValList]
  | _ :: _, [] => by simp [beqValList]

theorem beqValObj_iff : ∀ (a b : List (String × Value)), beqValObj a b = true ↔ a = b
  | [], [] => by simp [beqValObj]
  | (k, v) :: as, (k', v') :: bs => by
      simp only [beqValObj, Bool.and_eq_true, beqVal_iff v v', beqValObj_iff as bs, beq_iff_eq]
      constructor
      · rintro ⟨⟨h1, h2⟩, h3⟩; rw [h1, h2, h3]
      · intro h; cases h; exact ⟨⟨rfl, rfl⟩, rfl⟩
  | [], _ :: _ => by simp [beqValObj]
  | _ :: _, [] => by simp [beqValObj]

end

instance : DecidableEq Value := fun a b => decidable_of_iff _ (beqVal_iff a b)

/-- Key lookup in an object map (`serde_json::Map::get`). -/
def lookupKey : List (String × Value) → String → Option Value
  | [], _ => none
  | (k', v') :: rest, k => if k' = k then some v' else lookupKey rest k

/-- One step of field access: `Value::get(key)` succeeds only on objects. -/
def Value.getKey : Value → String → Option Value
  | .obj fs, k => lookupKey fs k
  | _, _ => none

/-- The segment-walking loop inside `get_field`. -/
def getFieldParts : Value → List String → Option Value
  | cur, [] => some cur
  | cur, p :: ps =>
    match cur.getKey p with
    | some nxt => getFieldParts nxt ps
    | none => none

/-- Split a character list at every `'.'` (`str::split('.')`); the empty
path yields the single segment `""`. -/
def splitDot : List Char → List (List Char)
  | [] => [[]]
  | c :: rest =>
    if c = '.' then [] :: splitDot rest
    else
      match splitDot rest with
      | [] => [[c]]
      | p :: ps => (c :: p) :: ps

/-- Model of `path.split('.')` as a list of strings. -/
def splitPath (path : String) : List String :=
  (splitDot path.toList).map (fun cs => ⟨cs⟩)

/-- Model of `engine::get_field`: resolve a dotted field path from a JSON value. -/
def get_field (doc : Value) (path : String) : Option Value :=
  getFieldParts doc (splitPath path)

/-- Three-way comparison from a linear order (`partial_cmp` / `Ord::cmp`). -/
def cmpLin {α : Type} [LinearOrder α] (x y : α) : Ordering :=
  if x < y then .lt else if x = y then .eq else .gt

/-- Model of `filter::compare_values`: comparison used by relational filter operators.
`none` is the "incomparable" outcome. -/
def compare_values (a : Option Value) (b : Value) : Option Ordering :=
  match a with
  | none => none
  | some a =>
    match a, b with
    | .num x, .num y => some (cmpLin x y)
    | .str x, .str y => some (cmpLin x y)
    | _, _ => none

/-- Model of `filter::FilterNode`: recursive filter tree.  `group` carries the
`FilterGroup` fields (`logic`, `conditions`), `cond` the `FilterCondition`
fields (`field`, `operator`, `value`). -/
inductive FilterNode where
  | group (logic : String) (conditions : List FilterNode)
  | cond (field : String) (operator : String) (value : Value)

/-- Substring-from-the-start test on character lists (`str` prefix test). -/
def listStarts : List Char → List Char → Bool
  | _, [] => true
  | [], _ :: _ => false
  | a :: as, b :: bs => a == b && listStarts as bs

/-- Substring-anywhere test on character lists (`str::contains`). -/
def listHasSub (s t : List Char) : Bool :=
  listStarts s t ||
    match s with
    | [] => false
    | _ :: as => listHasSub as t

/-- Model of `str::contains` on strings. -/
def strContains (s t : String) : Bool := listHasSub s.toList t.toList

/-- Model of `str::starts_with` on strings. -/
def strStarts (s t : String) : Bool := listStarts s.toList t.toList

/-- Model of `str::ends_with` on strings. -/
def strEnds (s t : String) : Bool := listStarts s.toList.reverse t.toList.reverse

/-- Model of `filter::evaluate_condition`: evaluate one leaf condition. -/
def evaluate_condition (doc : Value) (field operator : String) (value : Value) : Bool :=
  let field_value := get_field doc field
  match operator with
  | "eq" => field_value == some value
  | "ne" => field_value != some value
  | "gt" => compare_values field_value value == some .gt
  | "gte" =>
    match compare_values field_value value with
    | some .gt | some .eq => true
    | _ => false
  | "lt" => compare_values field_value value == some .lt
  | "lte" =>
    match compare_values field_value value with
    | some .lt | some .eq => true
    | _ => false
  | "in" =>
    match field_value, value with
    | some fv, .arr xs => xs.contains fv
    | _, _ => false
  | "nin" =>
    match field_value, value with
    | some fv, .arr xs => !xs.contains fv
    | _, _ => true
  | "contains" =>
    match field_value, value with
    | some (.str fv), .str target => strContains fv target
    | _, _ => false
  | "startsWith" =>
    match field_value, value with
    | some (.str fv), .str target => strStarts fv target
    | _, _ => false
  | "endsWith" =>
    match field_value, value with
    | some (.str fv), .str target => strEnds fv target
    | _, _ => false
  | "exists" =>
    let ex := field_value.isSome
    if value = .bool true then ex else !ex
  | _ => false

mutual

/-- Model of `filter::evaluate_filter`: evaluate a filter node against a document. -/
def evaluate_filter (doc : Value) : FilterNode → Bool
  | .group logic conditions =>
    if logic = "and" then allFilter doc conditions else anyFilter doc conditions
  | .cond field operator value => evaluate_condition doc field operator value

/-- Model of `Iterator::all` over a group's children. -/
def allFilter (doc : Value) : List FilterNode → Bool
  | [] => true
  | c :: cs => evaluate_filter doc c && allFilter doc cs

/-- Model of `Iterator::any` over a group's children. -/
def anyFilter (doc : Value) : List FilterNode → Bool
  | [] => false
  | c :: cs => evaluate_filter doc c || anyFilter doc cs

end

/-- Model of `sort::SortClause`. -/
structure SortClause where
  field : String
  direction : String

/-- Model of `sort::compare_sort_values`: total comparison used while sorting. -/
def compare_sort_values : Option Value → Option Value → Ordering
  | none, none => .eq
  | none, some _ => .lt
  | some _, none => .gt
  | some a, some b =>
    match a, b with
    | .num x, .num y => cmpLin x y
    | .str x, .str y => cmpLin x y
    | .bool x, .bool y => cmpLin x y
    | _, _ => .eq

/-- The comparator closure passed to `sort_by` in `sort::sort_documents`:
first non-equal clause (direction applied) decides. -/
def compareDocs (clauses : List SortClause) (a b : Value) : Ordering :=
  match clauses with
  | [] => .eq
  | c :: rest =>
    let o := compare_sort_values (get_field a c.field) (get_field b c.field)
    let o := if c.direction = "desc" then o.swap else o
    if o = .eq then compareDocs rest a b else o

/-- Inner loop of a stable insertion sort working from the right end of the
already-sorted prefix (kept reversed here): the new element shifts left past
every element comparing `Greater`, and stops at the first one that does not.
This is exactly the insertion step `slice::sort_by` uses on short slices. -/
def insRev (cmp : Value → Value → Ordering) (x : Value) : List Value → List Value
  | [] => [x]
  | y :: ys => if cmp y x = .gt then y :: insRev cmp x ys else x :: y :: ys

/-- Stable insertion sort with the sorted prefix kept reversed. -/
def insertionSortRev (cmp : Value → Value → Ordering) (docs : List Value) : List Value :=
  docs.foldl (fun pr x => insRev cmp x pr) []

/-- Model of `sort::sort_documents`.  `slice::sort_by` is a stable adaptive sort
(insertion sort on short slices, merges of detected nondescending runs
otherwise); it is modelled by a stable insertion sort, which coincides with
it whenever the comparator is consistent with a total order and shares its
run-adaptive behaviour (both are the identity on input whose adjacent pairs
already compare non-`Greater`). -/
def sort_documents (docs : List Value) (clauses : List SortClause) : List Value :=
  (insertionSortRev (compareDocs clauses) docs).reverse

/-- Model of `engine::Projection`.  The Rust field names `include` / `exclude` are
Lean keywords, hence `incl` / `excl`. -/
structure Projection where
  incl : Option (List String)
  excl : Option (List String)

/-- Model of `engine::QueryPlan`. -/
structure QueryPlan where
  filter : Option FilterNode
  sort : Option (List SortClause)
  skip : Option Nat
  limit : Option Nat
  projection : Option Projection

/-- Model of `engine::ExecuteResult`. -/
structure ExecuteResult where
  documents : List Value
  total_matched : Nat

/-- Model of `BTreeMap::insert`: insert into a key-sorted association list,
replacing an existing binding for the same key. -/
def insertKV : List (String × Value) → String → Value → List (String × Value)
  | [], k, v => [(k, v)]
  | (k', v') :: rest, k, v =>
    if k < k' then (k, v) :: (k', v') :: rest
    else if k = k' then (k, v) :: rest
    else (k', v') :: insertKV rest k v

/-- Model of `BTreeMap::remove`: drop the binding for a key. -/
def eraseKey : List (String × Value) → String → List (String × Value)
  | [], _ => []
  | (k', v') :: rest, k =>
    if k' = k then eraseKey rest k else (k', v') :: eraseKey rest k

/-- Model of `engine::apply_projection`. -/
def apply_projection (doc : Value) (projection : Projection) : Value :=
  match doc with
  | .obj map =>
    match projection.incl with
    | some fields =>
      .obj (fields.foldl
        (fun acc f =>
          match lookupKey map f with
          | some v => insertKV acc f v
          | none => acc) [])
    | none =>
      match projection.excl with
      | some fields => .obj (fields.foldl (fun acc f => eraseKey acc f) map)
      | none => doc
  | _ => doc

/-- Model of `engine::execute`: the fixed filter → sort → skip → limit → projection
pipeline. -/
def execute (documents : List Value) (plan : QueryPlan) : ExecuteResult :=
  let results : List Value :=
    match plan.filter with
    | some filter => documents.filter (fun doc => evaluate_filter doc filter)
    | none => documents
  let total_matched := results.length
  let results :=
    match plan.sort with
    | some sort_clauses => sort_documents results sort_clauses
    | none => results
  let results :=
    match plan.skip with
    | some skip => if skip < results.length then results.drop skip else []
    | none => results
  let results :=
    match plan.limit with
    | some limit => results.take limit
    | none => results
  let results :=
    match plan.projection with
    | some projection => results.map (fun doc => apply_projection doc projection)
    | none => results
  ⟨results, total_matched⟩

/-- Model of `aggregate::AggregateClause`.  The Rust field name `alias` is a Lean
keyword, hence `aliasName`. -/
structure AggregateClause where
  function : String
  field : Option String
  aliasName : String

/-- Model of `aggregate::GroupByClause`. -/
structure GroupByClause where
  fields : List String
  aggregates : List AggregateClause

/-- Rendering of an integer-valued rational (JSON integer literal). -/
def numToJson (q : Rat) : String :=
  if q.den = 1 then toString q.num else toString q

mutual

/-- Model of `serde_json` compact serialisation `Value::to_string`, used only to form
group keys.  String escaping of special characters is not modelled. -/
def Value.toJson : Value → String
  | .null => "null"
  | .bool true => "true"
  | .bool false => "false"
  | .num q => numToJson q
  | .str s => "\"" ++ s ++ "\""
  | .arr xs => "[" ++ listToJson xs ++ "]"
  | .obj fs => "\x7b" ++ objToJson fs ++ "\x7d"

/-- Comma-joined serialisation of array elements. -/
def listToJson : List Value → String
  | [] => ""
  | [x] => Value.toJson x
  | x :: xs => Value.toJson x ++ "," ++ listToJson xs

/-- Comma-joined serialisation of object entries. -/
def objToJson : List (String × Value) → String
  | [] => ""
  | [(k, v)] => "\"" ++ k ++ "\":" ++ Value.toJson v
  | (k, v) :: fs => "\"" ++ k ++ "\":" ++ Value.toJson v ++ "," ++ objToJson fs

end

/-- The group-key computation in `aggregate::execute_aggregate` step 2:
resolve each group-by field, serialise it (absent → `"null"`), join with
`"|"`. -/
def groupKey (fields : List String) (doc : Value) : String :=
  String.intercalate "|" (fields.map (fun f =>
    match get_field doc f with
    | some v => v.toJson
    | none => "null"))

/-- Model of `HashMap::entry(key).or_default().push(doc)` on an insertion-ordered
association list of groups. -/
def addToGroup : List (String × List Value) → String → Value → List (String × List Value)
  | [], k, d => [(k, [d])]
  | (k', ds) :: rest, k, d =>
    if k' = k then (k', ds ++ [d]) :: rest else (k', ds) :: addToGroup rest k d

/-- Grouping pass of `aggregate::execute_aggregate` (step 2). -/
def buildGroups (fields : List String) (docs : List Value) : List (String × List Value) :=
  docs.foldl (fun gs d => addToGroup gs (groupKey fields d) d) []

/-- Model of `Value::as_f64`: numeric view of a value (numbers only, no coercion). -/
def Value.asNum : Value → Option Rat
  | .num q => some q
  | _ => none

/-- The numeric-value extraction for one aggregate clause: resolve `field` on
each group member, keep only numbers. -/
def numericValues (group_docs : List Value) (field : Option String) : List Rat :=
  match field with
  | some f => group_docs.filterMap (fun d => (get_field d f).bind Value.asNum)
  | none => []

/-- Model of `Iterator::reduce(f64::min)`. -/
def reduceMin : List Rat → Option Rat
  | [] => none
  | x :: xs => some (xs.foldl min x)

/-- Model of `Iterator::reduce(f64::max)`. -/
def reduceMax : List Rat → Option Rat
  | [] => none
  | x :: xs => some (xs.foldl max x)

/-- The per-clause aggregate computation in `aggregate::execute_aggregate`
(step 3's `match agg.function`).  In the rational model `Number::from_f64`
always succeeds, so `sum`/`avg` never fall back to null. -/
def aggResult (group_docs : List Value) (agg : AggregateClause) : Value :=
  let values := numericValues group_docs agg.field
  match agg.function with
  | "count" => .num group_docs.length
  | "sum" => .num (values.foldl (· + ·) 0)
  | "avg" =>
    if values.isEmpty then .num 0
    else .num (values.foldl (· + ·) 0 / values.length)
  | "min" =>
    match reduceMin values with
    | some v => .num v
    | none => .null
  | "max" =>
    match reduceMax values with
    | some v => .num v
    | none => .null
  | _ => .null

/-- One output row of `aggregate::execute_aggregate` (step 3): group-by field
values from the first member, then one entry per aggregate clause. -/
def buildRow (fields : List String) (aggregates : List AggregateClause)
    (group_docs : List Value) : Value :=
  let row : List (String × Value) :=
    match group_docs.head? with
    | some first =>
      fields.foldl (fun r f =>
        match get_field first f with
        | some v => insertKV r f v
        | none => r) []
    | none => []
  let row := aggregates.foldl
    (fun r agg => insertKV r agg.aliasName (aggResult group_docs agg)) row
  Value.obj row

/-- Model of `aggregate::execute_aggregate`. -/
def execute_aggregate (documents : List Value) (group_by : GroupByClause)
    (filter : Option FilterNode) : List Value :=
  let filtered : List Value :=
    match filter with
    | some f => documents.filter (fun d => evaluate_filter d f)
    | none => documents
  let groups := buildGroups group_by.fields filtered
  groups.map (fun g => buildRow group_by.fields group_by.aggregates g.2)

/-- Count of documents passing the plan's filter (all of them when absent). -/
def matchedCount (documents : List Value) (filter : Option FilterNode) : Nat :=
  match filter with
  | some f => (documents.filter (fun doc => evaluate_filter doc f)).length
  | none => documents.length

/-- Shape test: the resolved value and the literal are a number/number or
string/string pair — the only shapes `compare_values` can order. -/
def ordinalPair : Option Value → Value → Bool
  | some (.num _), .num _ => true
  | some (.str _), .str _ => true
  | _, _ => false

/-- The operator strings `evaluate_condition` dispatches on. -/
def definedOps : List String :=
  ["eq", "ne", "gt", "gte", "lt", "lte", "in", "nin",
   "contains", "startsWith", "endsWith", "exists"]

/-- The aggregate function names `execute_aggregate` dispatches on. -/
def aggFns : List String := ["count", "sum", "avg", "min", "max"]

/-- Sortedness invariant of the `BTreeMap` model: keys strictly increasing. -/
def keySorted (m : List (String × Value)) : Prop :=
  m.Pairwise (fun a b => a.1 < b.1)

theorem execute_tm (docs : List Value) (q : QueryPlan) :
    (execute docs q).total_matched = matchedCount docs q.filter := by
  cases hq : q.filter <;> simp [execute, matchedCount, hq]

/-- Claim C1: `execute` returns `total_matched` equal to the number of input
documents that pass the filter (all documents when the filter is absent), and
the value agrees between any two plans with the same filter, whatever their
skip, limit, projection (and sort) fields. -/
theorem execute_total_matched_filter_only (docs : List Value) (p p' : QueryPlan)
    (h : p.filter = p'.filter) :
    (execute docs p).total_matched = matchedCount docs p.filter ∧
    (execute docs p).total_matched = (execute docs p').total_matched ∧
    matchedCount docs none = docs.length :=
  ⟨execute_tm docs p, by rw [execute_tm docs p, execute_tm docs p', h], rfl⟩

/-- Witness for C1 at two concrete plans differing in skip and limit. -/
theorem execute_total_matched_filter_only_witness :
    (execute [Value.obj [("x", Value.num 1)], Value.obj [("x", Value.num 2)]]
        ⟨none, none, none, some 1, none⟩).total_matched =
      matchedCount [Value.obj [("x", Value.num 1)], Value.obj [("x", Value.num 2)]] none ∧
    (execute [Value.obj [("x", Value.num 1)], Value.obj [("x", Value.num 2)]]
        ⟨none, none, none, some 1, none⟩).total_matched =
      (execute [Value.obj [("x", Value.num 1)], Value.obj [("x", Value.num 2)]]
        ⟨none, none, some 5, none, none⟩).total_matched ∧
    matchedCount [Value.obj [("x", Value.num 1)], Value.obj [("x", Value.num 2)]] none =
      [Value.obj [("x", Value.num 1)], Value.obj [("x", Value.num 2)]].length :=
  execute_total_matched_filter_only _ _ _ rfl

theorem compare_values_none {fv : Option Value} {v : Value}
    (h : ordinalPair fv v = false) : compare_values fv v = none := by
  cases fv with
  | none => rfl
  | some a => cases a <;> cases v <;> simp_all [compare_values, ordinalPair]

/-- Claim C2: when the resolved field is absent, or the resolved value and the
literal are not both numbers or both strings, `gt`, `gte`, `lt` and `lte` all
evaluate to false (and, being total functions, raise no error). -/
theorem relational_incomparable_false (doc : Value) (field : String) (v : Value)
    (h : ordinalPair (get_field doc field) v = false) :
    evaluate_condition doc field "gt" v = false ∧
    evaluate_condition doc field "gte" v = false ∧
    evaluate_condition doc field "lt" v = false ∧
    evaluate_condition doc field "lte" v = false := by
  have hcv := compare_values_none h
  refine ⟨?_, ?_, ?_, ?_⟩ <;> simp [evaluate_condition, hcv]

/-- Witness for C2: the spec scenario `age gt 25` against `{age:"old"}`. -/
theorem relational_incomparable_false_witness :
    ordinalPair (get_field (Value.obj [("age", Value.str "old")]) "age") (Value.num 25) = false ∧
    evaluate_condition (Value.obj [("age", Value.str "old")]) "age" "gt" (Value.num 25) = false :=
  ⟨by decide, (relational_incomparable_false _ _ _ (by decide)).1⟩

/-- Claim C3: an AND group with no children evaluates to true and an OR group
with no children evaluates to false, on every document. -/
theorem empty_group_conventions (doc : Value) :
    evaluate_filter doc (.group "and" []) = true ∧
    evaluate_filter doc (.group "or" []) = false := by
  constructor <;> rfl

/-- Counterexample to claim C4: on a document where the field is absent and
the literal is JSON null, the claim says `eq` evaluates to true, but the code
compares `None == Some(Null)` and yields false. -/
theorem absent_eq_null_literal_counterexample :
    evaluate_condition (Value.obj []) "a" "eq" Value.null = false := by decide

/-- Claim C4 (amended): `eq` is structural equality between the resolved value
and the literal, `ne` is its negation, and when the field resolves to Absent,
`eq` is false for **every** literal — including JSON null — with `ne` true. -/
theorem eq_ne_structural_absent_never_equal (doc : Value) (field : String) (v : Value) :
    (evaluate_condition doc field "eq" v = true ↔ get_field doc field = some v) ∧
    (evaluate_condition doc field "ne" v = !(evaluate_condition doc field "eq" v)) ∧
    (get_field doc field = none →
      evaluate_condition doc field "eq" v = false ∧
      evaluate_condition doc field "ne" v = true) := by
  refine ⟨?_, ?_, fun h => ?_⟩
  · simp [evaluate_condition]
  · simp [evaluate_condition, bne]
  · simp [evaluate_condition, h]

/-- Witness for C4 (amended) at a concrete document and literal. -/
theorem eq_ne_structural_absent_never_equal_witness :
    (evaluate_condition (Value.obj [("a", Value.num 3)]) "a" "eq" (Value.num 3) = true ↔
      get_field (Value.obj [("a", Value.num 3)]) "a" = some (Value.num 3)) ∧
    (evaluate_condition (Value.obj [("a", Value.num 3)]) "a" "ne" (Value.num 3) =
      !(evaluate_condition (Value.obj [("a", Value.num 3)]) "a" "eq" (Value.num 3))) ∧
    (get_field (Value.obj [("a", Value.num 3)]) "a" = none →
      evaluate_condition (Value.obj [("a", Value.num 3)]) "a" "eq" (Value.num 3) = false ∧
      evaluate_condition (Value.obj [("a", Value.num 3)]) "a" "ne" (Value.num 3) = true) :=
  eq_ne_structural_absent_never_equal _ _ _

/-- Claim C5: on a group whose clause yields no numeric values, `sum` gives 0,
`avg` gives 0, `min` and `max` give null; `count` always gives the group's
cardinality whatever the `field`. -/
theorem aggregate_empty_numeric_defaults (g : List Value) (agg : AggregateClause) :
    (numericValues g agg.field = [] →
      (agg.function = "sum" → aggResult g agg = .num 0) ∧
      (agg.function = "avg" → aggResult g agg = .num 0) ∧
      (agg.function = "min" → aggResult g agg = .null) ∧
      (agg.function = "max" → aggResult g agg = .null)) ∧
    (agg.function = "count" → aggResult g agg = .num g.length) := by
  constructor
  · intro h
    refine ⟨fun hf => ?_, fun hf => ?_, fun hf => ?_, fun hf => ?_⟩ <;>
      simp [aggResult, hf, h, reduceMin, reduceMax]
  · intro hf
    simp [aggResult, hf]

/-- Witness for C5: a group whose `x` values are non-numeric. -/
theorem aggregate_empty_numeric_defaults_witness :
    (aggResult [Value.obj [("x", Value.str "a")]] ⟨"min", some "x", "m"⟩ = Value.null) ∧
    (aggResult [Value.obj [("x", Value.str "a")]] ⟨"count", some "zzz", "c"⟩ =
      Value.num ([Value.obj [("x", Value.str "a")]].length)) :=
  ⟨((aggregate_empty_numeric_defaults _ ⟨"min", some "x", "m"⟩).1 (by decide)).2.2.1 rfl,
   (aggregate_empty_numeric_defaults _ ⟨"count", some "zzz", "c"⟩).2 rfl⟩

/-- Claim C7: a condition with an operator outside the defined set evaluates
to false (no error), and an aggregate clause with a function name outside
count/sum/avg/min/max yields null. -/
theorem unknown_operator_function_fail_closed :
    (∀ (doc : Value) (field op : String) (v : Value),
      op ∉ definedOps → evaluate_condition doc field op v = false) ∧
    (∀ (g : List Value) (agg : AggregateClause),
      agg.function ∉ aggFns → aggResult g agg = .null) := by
  constructor
  · intro doc field op v h
    unfold evaluate_condition
    split <;> simp_all [definedOps]
  · intro g agg h
    unfold aggResult
    split <;> simp_all [aggFns]

/-- Witness for C7 at the unknown names "equals" and "median". -/
theorem unknown_operator_function_fail_closed_witness :
    evaluate_condition (Value.obj []) "a" "equals" (Value.num 1) = false ∧
    aggResult [] ⟨"median", some "x", "m"⟩ = Value.null :=
  ⟨unknown_operator_function_fail_closed.1 _ _ _ _ (by decide),
   unknown_operator_function_fail_closed.2 _ _ (by decide)⟩

theorem anyFilter_iff (doc : Value) (cs : List FilterNode) :
    anyFilter doc cs = true ↔ ∃ c ∈ cs, evaluate_filter doc c = true := by
  induction cs with
  | nil => simp [anyFilter]
  | cons c cs ih => simp [anyFilter, ih]

/-- Claim C9: every group whose `logic` string differs from exactly "and"
(e.g. "AND", "Or", or garbage) is evaluated as an OR over its children — true
iff at least one child matches; there is no fail-closed branch. -/
theorem non_and_logic_evaluates_as_or (doc : Value) (logic : String)
    (conds : List FilterNode) (h : logic ≠ "and") :
    evaluate_filter doc (.group logic conds) = anyFilter doc conds ∧
    (evaluate_filter doc (.group logic conds) = true ↔
      ∃ c ∈ conds, evaluate_filter doc c = true) := by
  have he : evaluate_filter doc (.group logic conds) = anyFilter doc conds := by
    simp [evaluate_filter, h]
  exact ⟨he, by rw [he]; exact anyFilter_iff doc conds⟩

/-- Witness for C9 at the logic string "AND". -/
theorem non_and_logic_evaluates_as_or_witness :
    evaluate_filter (Value.obj []) (.group "AND" [.group "and" []]) =
      anyFilter (Value.obj []) [.group "and" []] ∧
    (evaluate_filter (Value.obj []) (.group "AND" [.group "and" []]) = true ↔
      ∃ c ∈ [FilterNode.group "and" []], evaluate_filter (Value.obj []) c = true) :=
  non_and_logic_evaluates_as_or _ _ _ (by decide)

/-- Claim C10: a document whose group-by field resolves to a present JSON null
and one on which the field is absent produce the identical key component
"null", hence land in the same group. -/
theorem null_and_absent_share_group_key (d1 d2 : Value) (f : String)
    (h1 : get_field d1 f = some .null) (h2 : get_field d2 f = none) :
    groupKey [f] d1 = "null" ∧ groupKey [f] d2 = "null" ∧
    groupKey [f] d1 = groupKey [f] d2 ∧
    (buildGroups [f] [d1, d2]).length = 1 := by
  have k1 : groupKey [f] d1 = "null" := by
    simp [groupKey, h1, Value.toJson, String.intercalate, String.intercalate.go]
  have k2 : groupKey [f] d2 = "null" := by
    simp [groupKey, h2, String.intercalate, String.intercalate.go]
  refine ⟨k1, k2, by rw [k1, k2], ?_⟩
  simp [buildGroups, addToGroup, k1, k2]

/-- Witness for C10: `{a: null}` and `{}` grouped by `a`. -/
theorem null_and_absent_share_group_key_witness :
    groupKey ["a"] (Value.obj [("a", Value.null)]) = "null" ∧
    groupKey ["a"] (Value.obj []) = "null" ∧
    groupKey ["a"] (Value.obj [("a", Value.null)]) = groupKey ["a"] (Value.obj []) ∧
    (buildGroups ["a"] [Value.obj [("a", Value.null)], Value.obj []]).length = 1 :=
  null_and_absent_share_group_key _ _ _ (by decide) (by decide)

theorem cmpLin_swap {α : Type} [LinearOrder α] (x y : α) :
    (cmpLin x y).swap = cmpLin y x := by
  unfold cmpLin
  rcases lt_trichotomy x y with h | h | h
  · rw [if_pos h, if_neg (not_lt.mpr h.le), if_neg (ne_of_gt h)]; rfl
  · subst h; simp; rfl
  · rw [if_neg (not_lt.mpr h.le), if_neg (ne_of_gt h), if_pos h]; rfl

theorem compare_sort_values_swap (a b : Option Value) :
    (compare_sort_values a b).swap = compare_sort_values b a := by
  cases a with
  | none => cases b <;> rfl
  | some x =>
    cases b with
    | none => rfl
    | some y => cases x <;> cases y <;> simp [compare_sort_values, cmpLin_swap] <;> rfl

theorem compareDocs_swap (cls : List SortClause) (a b : Value) :
    (compareDocs cls a b).swap = compareDocs cls b a := by
  induction cls with
  | nil => rfl
  | cons c rest ih =>
    have hs : compare_sort_values (get_field b c.field) (get_field a c.field)
        = (compare_sort_values (get_field a c.field) (get_field b c.field)).swap :=
      (compare_sort_values_swap _ _).symm
    simp only [compareDocs, hs]
    cases hu : compare_sort_values (get_field a c.field) (get_field b c.field) <;>
      by_cases hd : c.direction = "desc" <;>
      simp only [hd, if_true, if_false, ite_true, ite_false] <;>
      first
        | exact ih
        | rfl

theorem chain'_insRev (cmp : Value → Value → Ordering)
    (hswap : ∀ a b, (cmp a b).swap = cmp b a) (x : Value) :
    ∀ (pr : List Value), pr.Chain' (fun a b => cmp b a ≠ .gt) →
      (insRev cmp x pr).Chain' (fun a b => cmp b a ≠ .gt)
  | [], _ => List.chain'_singleton x
  | y :: ys, h => by
    by_cases hc : cmp y x = .gt
    · rw [insRev, if_pos hc]
      rw [List.chain'_cons'] at h ⊢
      refine ⟨?_, chain'_insRev cmp hswap x ys h.2⟩
      intro z hz
      cases ys with
      | nil =>
        simp only [insRev, List.head?] at hz
        cases hz
        have : cmp x y = Ordering.lt := by
          have := hswap y x
          rw [hc] at this
          rw [← this]; rfl
        simp [this]
      | cons w ws =>
        by_cases hw : cmp w x = .gt
        · simp only [insRev, if_pos hw, List.head?_cons] at hz
          cases hz
          exact h.1 z (by simp)
        · simp only [insRev, if_neg hw, List.head?_cons] at hz
          cases hz
          have : cmp x y = Ordering.lt := by
            have := hswap y x
            rw [hc] at this
            rw [← this]; rfl
          simp [this]
    · rw [insRev, if_neg hc]
      exact List.chain'_cons.mpr ⟨hc, h⟩

theorem foldl_insRev_chain (cmp : Value → Value → Ordering)
    (hswap : ∀ a b, (cmp a b).swap = cmp b a) :
    ∀ (docs pr : List Value), pr.Chain' (fun a b => cmp b a ≠ .gt) →
      (docs.foldl (fun pr x => insRev cmp x pr) pr).Chain' (fun a b => cmp b a ≠ .gt)
  | [], _pr, h => h
  | x :: rest, pr, h =>
    foldl_insRev_chain cmp hswap rest (insRev cmp x pr) (chain'_insRev cmp hswap x pr h)

theorem foldl_insRev_sorted (cmp : Value → Value → Ordering) :
    ∀ (docs pr : List Value), docs.Chain' (fun a b => cmp a b ≠ .gt) →
      (∀ x ∈ docs.head?, ∀ y ∈ pr.head?, cmp y x ≠ .gt) →
      docs.foldl (fun pr x => insRev cmp x pr) pr = docs.reverse ++ pr
  | [], _pr, _, _ => by simp
  | x :: rest, pr, hd, hhd => by
    have hstep : insRev cmp x pr = x :: pr := by
      cases pr with
      | nil => rfl
      | cons y ys =>
        rw [insRev, if_neg (hhd x (by simp) y (by simp))]
    rw [List.foldl_cons, hstep,
      foldl_insRev_sorted cmp rest (x :: pr) (List.chain'_cons'.mp hd).2
        (by
          intro z hz w hw
          simp only [List.head?_cons, Option.mem_def, Option.some.injEq] at hw
          subst hw
          exact (List.chain'_cons'.mp hd).1 z hz)]
    simp

theorem sort_documents_chain (docs : List Value) (cls : List SortClause) :
    (sort_documents docs cls).Chain' (fun a b => compareDocs cls a b ≠ .gt) := by
  rw [sort_documents, List.chain'_reverse]
  exact foldl_insRev_chain (compareDocs cls) (compareDocs_swap cls) docs [] List.chain'_nil

/-- Claim C6: sorting is idempotent — applying `sort_documents` to the output
of `sort_documents` under the same spec returns that output unchanged.  The
sort's output always has adjacent pairs comparing non-`Greater`, and the
stable sort leaves such a sequence untouched. -/
theorem sort_documents_idempotent (docs : List Value) (cls : List SortClause) :
    sort_documents (sort_documents docs cls) cls = sort_documents docs cls := by
  have h := sort_documents_chain docs cls
  rw [sort_documents, insertionSortRev,
    foldl_insRev_sorted (compareDocs cls) _ [] h (by simp)]
  simp

theorem mem_insertKV (k : String) (v : Value) :
    ∀ (m : List (String × Value)) (x : String × Value),
      x ∈ insertKV m k v → x = (k, v) ∨ x ∈ m
  | [], x, hx => by simpa [insertKV] using hx
  | (a, b) :: rest, x, hx => by
    by_cases h1 : k < a
    · rw [insertKV, if_pos h1] at hx
      simpa using hx
    · by_cases h2 : k = a
      · rw [insertKV, if_neg h1, if_pos h2] at hx
        rcases List.mem_cons.mp hx with h | h
        · exact Or.inl h
        · exact Or.inr (List.mem_cons_of_mem _ h)
      · rw [insertKV, if_neg h1, if_neg h2] at hx
        rcases List.mem_cons.mp hx with h | h
        · exact Or.inr (by simp [h])
        · rcases mem_insertKV k v rest x h with h' | h'
          · exact Or.inl h'
          · exact Or.inr (List.mem_cons_of_mem _ h')

theorem keySorted_insertKV (k : String) (v : Value) :
    ∀ (m : List (String × Value)), keySorted m → keySorted (insertKV m k v)
  | [], _ => by simp [insertKV, keySorted]
  | (a, b) :: rest, h => by
    rw [keySorted, List.pairwise_cons] at h
    by_cases h1 : k < a
    · rw [insertKV, if_pos h1, keySorted, List.pairwise_cons]
      refine ⟨?_, List.pairwise_cons.mpr h⟩
      intro x hx
      rcases List.mem_cons.mp hx with h' | h'
      · rw [h']; exact h1
      · exact h1.trans (h.1 x h')
    · by_cases h2 : k = a
      · rw [insertKV, if_neg h1, if_pos h2, keySorted, List.pairwise_cons]
        exact ⟨fun x hx => h2 ▸ h.1 x hx, h.2⟩
      · rw [insertKV, if_neg h1, if_neg h2, keySorted, List.pairwise_cons]
        constructor
        · intro x hx
          rcases mem_insertKV k v rest x hx with h' | h'
          · rw [h']
            rcases lt_trichotomy k a with hh | hh | hh
            · exact absurd hh h1
            · exact absurd hh h2
            · exact hh
          · exact h.1 x h'
        · exact keySorted_insertKV k v rest h.2

theorem lookupKey_mem_keys :
    ∀ (m : List (String × Value)) (k : String) (v : Value),
      lookupKey m k = some v → k ∈ m.map Prod.fst
  | [], k, v, h => by simp [lookupKey] at h
  | (a, b) :: rest, k, v, h => by
    by_cases ha : a = k
    · simp [ha]
    · rw [lookupKey, if_neg ha] at h
      simpa using Or.inr (lookupKey_mem_keys rest k v h)

theorem lookupKey_eq_none :
    ∀ (m : List (String × Value)) (k : String),
      k ∉ m.map Prod.fst → lookupKey m k = none
  | [], _, _ => rfl
  | (a, b) :: rest, k, h => by
    simp only [List.map_cons, List.mem_cons] at h
    push_neg at h
    rw [lookupKey, if_neg (fun he => h.1 he.symm)]
    exact lookupKey_eq_none rest k h.2

theorem lookupKey_isSome :
    ∀ (m : List (String × Value)) (k : String),
      k ∈ m.map Prod.fst → (lookupKey m k).isSome = true
  | [], k, h => by simp at h
  | (a, b) :: rest, k, h => by
    by_cases ha : a = k
    · simp [lookupKey, ha]
    · rw [lookupKey, if_neg ha]
      simp only [List.map_cons, List.mem_cons] at h
      rcases h with h | h
      · exact absurd h.symm ha
      · exact lookupKey_isSome rest k h

theorem keys_head_le (c : String) (d : Value) (s : List (String × Value))
    (hm : ∀ x ∈ s, c < x.1) (a : String)
    (ha : a ∈ ((c, d) :: s).map Prod.fst) : c ≤ a := by
  simp only [List.map_cons, List.mem_cons] at ha
  rcases ha with h | h
  · exact le_of_eq h.symm
  · rcases List.mem_map.mp h with ⟨x, hx, hx2⟩
    exact le_of_lt (hx2 ▸ hm x hx)

theorem sorted_lookup_ext :
    ∀ (l m : List (String × Value)), keySorted l → keySorted m →
      (∀ k, lookupKey l k = lookupKey m k) → l = m
  | [], [], _, _, _ => rfl
  | [], (c, d) :: s, _, _, hext => by
    have := hext c
    simp [lookupKey] at this
  | (a, b) :: t, [], _, _, hext => by
    have := hext a
    simp [lookupKey] at this
  | (a, b) :: t, (c, d) :: s, hl, hm, hext => by
    rw [keySorted, List.pairwise_cons] at hl hm
    have hla : lookupKey ((a, b) :: t) a = some b := by simp [lookupKey]
    have hmc : lookupKey ((c, d) :: s) c = some d := by simp [lookupKey]
    have hca : c ≤ a :=
      keys_head_le c d s hm.1 a (lookupKey_mem_keys _ _ _ ((hext a) ▸ hla))
    have hac : a ≤ c :=
      keys_head_le a b t hl.1 c (lookupKey_mem_keys _ _ _ ((hext c).symm ▸ hmc))
    have hace : a = c := le_antisymm hac hca
    have hbd : b = d := by
      have h1 := hext a
      rw [hla, hace, hmc] at h1
      exact Option.some.inj h1
    have htail : ∀ k, lookupKey t k = lookupKey s k := by
      intro k
      by_cases hk : k = a
      · subst hk
        rw [lookupKey_eq_none t k, lookupKey_eq_none s k]
        · intro hmem
          rcases List.mem_map.mp hmem with ⟨x, hx, hx2⟩
          exact absurd (hx2 ▸ hm.1 x hx) (by rw [← hace]; exact lt_irrefl k)
        · intro hmem
          rcases List.mem_map.mp hmem with ⟨x, hx, hx2⟩
          exact absurd (hx2 ▸ hl.1 x hx) (lt_irrefl k)
      · have h1 := hext k
        rw [lookupKey, if_neg (fun he => hk he.symm)] at h1
        rw [lookupKey, if_neg (fun he => hk (by rw [← hace] at he; exact he.symm))] at h1
        exact h1
    rw [hace, hbd, sorted_lookup_ext t s hl.2 hm.2 htail]

theorem lookupKey_insertKV :
    ∀ (m : List (String × Value)) (k : String) (v : Value) (k' : String),
      lookupKey (insertKV m k v) k' = if k' = k then some v else lookupKey m k'
  | [], k, v, k' => by
    simp only [insertKV, lookupKey]
    by_cases h : k' = k
    · rw [if_pos h.symm, if_pos h]
    · rw [if_neg (fun he => h he.symm), if_neg h]
  | (a, b) :: rest, k, v, k' => by
    by_cases h1 : k < a
    · rw [insertKV, if_pos h1]
      simp only [lookupKey]
      by_cases h : k' = k
      · rw [if_pos h.symm, if_pos h]
      · rw [if_neg (fun he => h he.symm), if_neg h]
    · by_cases h2 : k = a
      · rw [insertKV, if_neg h1, if_pos h2]
        simp only [lookupKey]
        by_cases h : k' = k
        · rw [if_pos h.symm, if_pos h]
        · rw [if_neg (fun he => h he.symm), if_neg h,
            if_neg (fun (he : a = k') => h (he.symm.trans h2.symm))]
      · rw [insertKV, if_neg h1, if_neg h2]
        simp only [lookupKey, lookupKey_insertKV rest k v k']
        by_cases h : a = k'
        · have hne : ¬(k' = k) := fun he => h2 (h.trans he).symm
          rw [if_pos h, if_neg hne, if_pos h]
        · by_cases hk : k' = k
          · rw [if_neg h, if_pos hk, if_pos hk]
          · rw [if_neg h, if_neg hk, if_neg hk, if_neg h]

theorem keySorted_foldl_proj (m : List (String × Value)) :
    ∀ (inc : List String) (acc : List (String × Value)), keySorted acc →
      keySorted (inc.foldl (fun acc f =>
        match lookupKey m f with
        | some v => insertKV acc f v
        | none => acc) acc)
  | [], _acc, h => h
  | f :: rest, acc, h => by
    rw [List.foldl_cons]
    apply keySorted_foldl_proj m rest
    cases hm : lookupKey m f with
    | none => simpa [hm] using h
    | some v => simpa [hm] using keySorted_insertKV f v acc h

theorem lookupKey_foldl_proj (m : List (String × Value)) :
    ∀ (inc : List String) (acc : List (String × Value)) (k : String),
      lookupKey (inc.foldl (fun acc f =>
        match lookupKey m f with
        | some v => insertKV acc f v
        | none => acc) acc) k =
      if k ∈ inc ∧ (lookupKey m k).isSome then lookupKey m k else lookupKey acc k
  | [], acc, k => by simp
  | f :: rest, acc, k => by
    rw [List.foldl_cons, lookupKey_foldl_proj m rest _ k]
    have hstep : lookupKey (match lookupKey m f with
        | some v => insertKV acc f v
        | none => acc) k =
        if k = f ∧ (lookupKey m k).isSome then lookupKey m k else lookupKey acc k := by
      cases hm : lookupKey m f with
      | none =>
        by_cases hk : k = f
        · subst hk; simp [hm]
        · simp [hk]
      | some v =>
        rw [lookupKey_insertKV]
        by_cases hk : k = f
        · subst hk; simp [hm]
        · simp [hk]
    rw [hstep]
    by_cases hk : k = f <;> by_cases hmem : k ∈ rest <;>
      by_cases hs : (lookupKey m k).isSome <;>
      simp [hk, hmem, hs] <;>
      (intro h1 h2; simp_all)

/-- Claim C8: projecting an object with an include list holding exactly its
top-level keys reproduces the object, and projecting with an empty exclude
list (and no include) is the identity. -/
theorem projection_roundtrip (m : List (String × Value)) (inc : List String)
    (hm : keySorted m) (hinc : ∀ k, k ∈ inc ↔ k ∈ m.map Prod.fst) :
    apply_projection (.obj m) ⟨some inc, none⟩ = .obj m ∧
    (∀ doc : Value, apply_projection doc ⟨none, some []⟩ = doc) := by
  constructor
  · simp only [apply_projection]
    congr 1
    apply sorted_lookup_ext _ m (keySorted_foldl_proj m inc [] (by simp [keySorted])) hm
    intro k
    rw [lookupKey_foldl_proj]
    by_cases hk : k ∈ m.map Prod.fst
    · simp [(hinc k).mpr hk, lookupKey_isSome m k hk]
    · have h2 : k ∉ inc := fun h => hk ((hinc k).mp h)
      simp [h2, lookupKey_eq_none m k hk, lookupKey]
  · intro doc; cases doc <;> rfl

/-- Witness for C8: a two-key object with its keys included in swapped
order. -/
theorem projection_roundtrip_witness :
    apply_projection (Value.obj [("a", Value.num 1), ("b", Value.str "x")])
        ⟨some ["b", "a"], none⟩ = Value.obj [("a", Value.num 1), ("b", Value.str "x")] ∧
    (∀ doc : Value, apply_projection doc ⟨none, some []⟩ = doc) :=
  projection_roundtrip _ _
    (by simp [keySorted]; decide)
    (by intro k; simp [List.mem_cons]; tauto)

end Pocket
